import Mathlib

/-!
# Verification of the Loki sink batch/encoding stage (`src/sinks/loki/event.rs`)

A shallow embedding of the Loki sink's batch-construction and encoding stage:
label canonicalization, stream grouping, per-stream timestamp sorting, size
estimators and the dual-format encoder, together with proofs of the spec's
claims about them.

Rust `String` is modelled by Lean `String` (a sequence of Unicode scalar
values, ordered lexicographically as in Rust), `Bytes` by `List Nat` (one
byte per element), `i64` timestamps by `Int`, `HashMap` by association lists
with last-write-wins insertion, and `Vec::sort`/`sort_by_key` by the stable
`List.mergeSort`.
-/

namespace Loki

/-- Raw byte payload (`bytes::Bytes`), one byte per element. -/
abbrev Bytes := List Nat

/-- `pub type Labels = Vec<(String, String)>`. -/
abbrev Labels := List (String × String)

/-- Opaque event-finalization handles (`EventFinalizers`); merging is
concatenation (union, nothing dropped or duplicated). -/
abbrev EventFinalizers := List Nat

/-- `pub struct LokiEvent` (timestamp, raw payload, tags, attachment). -/
structure LokiEvent where
  timestamp : Int
  event : Bytes
  tags : List String
  attachment : List (String × String)
deriving DecidableEq

/-- `pub struct LokiStream`: the resolved label mapping plus the events of
one stream.  The `HashMap<String, String>` is an association list with
unique keys. -/
structure LokiStream where
  stream : List (String × String)
  values : List LokiEvent
deriving DecidableEq

/-- `pub struct PartitionKey`. -/
structure PartitionKey where
  tenant_id : Option String
deriving DecidableEq

/-- `pub struct LokiRecord`. -/
structure LokiRecord where
  partition : PartitionKey
  labels : Labels
  event : LokiEvent
  finalizers : EventFinalizers
deriving DecidableEq

/-- `pub struct LokiBatch`: streams keyed by their canonical label string
(`HashMap<String, LokiStream>` as an association list in insertion order),
plus the merged finalizers. -/
structure LokiBatch where
  stream_by_labels : List (String × LokiStream)
  finalizers : EventFinalizers
deriving DecidableEq

/-! ## Label canonicalizer (lines 86-107 of `event.rs`) -/

/-- One character of the grouping-key escaping: backslash becomes two
backslashes, comma becomes backslash-comma, anything else is itself. -/
def escapeChar (c : Char) : String :=
  if c = '\\' then "\\\\"
  else if c = ',' then "\\,"
  else String.singleton c

/-- Escape one label component and terminate it with the comma separator
(`escaped.push(',')`). -/
def escapeLabelPart (s : String) : String :=
  (s.data.map escapeChar).foldl (· ++ ·) "" ++ ","

/-- The canonical grouping-key string of a label list: for each pair emit
key then value, each escaped and comma-terminated
(`labels.iter().flat_map(|(a, b)| [a, b]).map(escape).collect()`). -/
def labelsString (labels : Labels) : String :=
  ((labels.flatMap fun p => [p.1, p.2]).map escapeLabelPart).foldl (· ++ ·) ""

/-- Lexicographic `≤` on lists of characters: Rust's `Ord` for `String`
(byte-wise comparison of the UTF-8 encoding coincides with code-point-wise
comparison). -/
def charListLE : List Char → List Char → Bool
  | [], _ => true
  | _ :: _, [] => false
  | a :: as, b :: bs =>
    if a < b then true else if b < a then false else charListLE as bs

/-- Rust's `Ord` for `String`. -/
def strLE (s t : String) : Bool := charListLE s.data t.data

/-- Rust's `Ord` on `(String, String)`: lexicographic, key first, value as
tie-break. -/
def pairLE (a b : String × String) : Bool :=
  if a.1 = b.1 then strLE a.2 b.2 else strLE a.1 b.1

/-- `item.labels.sort()`: stable sort by key, then by value. -/
def sortLabels (l : Labels) : Labels := l.mergeSort pairLE

/-- The canonical grouping key of a record: its label list is sorted, then
rendered by `labelsString`. -/
def recordKey (r : LokiRecord) : String := labelsString (sortLabels r.labels)

/-! ## Stream grouping (lines 80-128 of `event.rs`) -/

/-- `HashMap::get` on the stream map. -/
def streamLookup (m : List (String × LokiStream)) (k : String) :
    Option LokiStream :=
  (m.find? fun p => p.1 == k).map (·.2)

/-- `get_mut` followed by `values.push(event)`: append the event to the
stream stored under `k` (the key is present at most once). -/
def streamPush : List (String × LokiStream) → String → LokiEvent →
    List (String × LokiStream)
  | [], _, _ => []
  | p :: rest, k, e =>
    if p.1 = k then (p.1, { p.2 with values := p.2.values ++ [e] }) :: rest
    else p :: streamPush rest k e

/-- `HashMap::insert` on a `String → String` map: overwrite if the key is
present, append otherwise (last write wins). -/
def mapInsert (m : List (String × String)) (k v : String) :
    List (String × String) :=
  if m.any fun p => p.1 == k then m.map fun p => if p.1 = k then (k, v) else p
  else m ++ [(k, v)]

/-- `item.labels.into_iter().collect::<HashMap<_, _>>()`: fold the (sorted)
label list into a map, later occurrences of a key overwriting earlier
ones. -/
def collectMap (l : List (String × String)) : List (String × String) :=
  l.foldl (fun m p => mapInsert m p.1 p.2) []

/-- One iteration of the grouping fold, acting on the stream map: sort the
labels, build the canonical key, create the stream on first sight (with the
collected label mapping and no values), then push the event. -/
def stepStreams (m : List (String × LokiStream)) (item : LokiRecord) :
    List (String × LokiStream) :=
  streamPush
    (if (streamLookup m (recordKey item)).isSome then m
     else m ++ [(recordKey item,
       { stream := collectMap (sortLabels item.labels), values := [] })])
    (recordKey item) item.event

/-- One iteration of the grouping fold on the whole batch: merge the
record's finalizers (`res.finalizers.merge(item.take_finalizers())`) and
update the stream map. -/
def stepBatch (res : LokiBatch) (item : LokiRecord) : LokiBatch :=
  { finalizers := res.finalizers ++ item.finalizers
    stream_by_labels := stepStreams res.stream_by_labels item }

/-- `sort_by_key(|e| e.timestamp)`'s comparison. -/
def eventLE (a b : LokiEvent) : Bool := decide (a.timestamp ≤ b.timestamp)

/-- `impl From<Vec<LokiRecord>> for LokiBatch`: fold all records into the
batch, then stable-sort every stream's values by timestamp. -/
def lokiBatchFrom (records : List LokiRecord) : LokiBatch :=
  let folded := records.foldl stepBatch ⟨[], []⟩
  { folded with
    stream_by_labels := folded.stream_by_labels.map
      fun p => (p.1, { p.2 with values := p.2.values.mergeSort eventLE }) }

/-- `HashMap::get` on a `String → String` map. -/
def mapLookup (m : List (String × String)) (k : String) : Option String :=
  (m.find? fun p => p.1 == k).map (·.2)

/-! ## A decoder for the grouping key (used to prove it injective) -/

/-- Character-level escaping as a list of characters
(`(escapeChar c).data`). -/
def escChar (c : Char) : List Char :=
  if c = '\\' then ['\\', '\\'] else if c = ',' then ['\\', ','] else [c]

/-- Token-level rendering of the grouping key: each token escaped and
comma-terminated. -/
def encTokens (ts : List (List Char)) : List Char :=
  ts.flatMap fun t => t.flatMap escChar ++ [',']

/-- Unescaping parser: split at unescaped commas, dropping one backslash of
each escape pair.  `acc` holds the current token, reversed. -/
def decodeAux : List Char → List Char → Option (List (List Char))
  | [], acc => if acc.isEmpty then some [] else none
  | c :: rest, acc =>
    if c = ',' then (decodeAux rest []).map fun ts => acc.reverse :: ts
    else if c = '\\' then
      match rest with
      | [] => none
      | d :: rest2 => decodeAux rest2 (d :: acc)
    else decodeAux rest (c :: acc)
termination_by l _ => l.length
decreasing_by all_goals simp_arith

/-- Parse a grouping-key character sequence back into its token list. -/
def decodeTokens (l : List Char) : Option (List (List Char)) := decodeAux l []

/-- The flattened token sequence of a label list: key, value, key,
value, ... -/
def labelTokens (l : Labels) : List (List Char) :=
  l.flatMap fun p => [p.1.data, p.2.data]

/-- Re-pair a flat token list into (key, value) pairs. -/
def pairUp : List (List Char) → Option Labels
  | [] => some []
  | [_] => none
  | k :: v :: rest => (pairUp rest).map fun l => (⟨k⟩, ⟨v⟩) :: l

/-- Full decoder: recover the label list (in canonical order) from a
grouping-key string. -/
def decodeLabels (s : String) : Option Labels :=
  (decodeTokens s.data).bind pairUp

/-! ## UTF-8 lossy decoding (models `String::from_utf8_lossy`) -/

/-- Is `b` a UTF-8 continuation byte (`0x80..=0xBF`)? -/
def isCont (b : Nat) : Bool := 0x80 ≤ b && b ≤ 0xBF

/-- Valid second byte of a three-byte sequence starting with `b` (excludes
overlong forms and surrogates). -/
def cont3Valid (b b1 : Nat) : Bool :=
  if b = 0xE0 then 0xA0 ≤ b1 && b1 ≤ 0xBF
  else if b = 0xED then 0x80 ≤ b1 && b1 ≤ 0x9F
  else isCont b1

/-- Valid second byte of a four-byte sequence starting with `b` (excludes
overlong forms and code points above `0x10FFFF`). -/
def cont4Valid (b b1 : Nat) : Bool :=
  if b = 0xF0 then 0x90 ≤ b1 && b1 ≤ 0xBF
  else if b = 0xF4 then 0x80 ≤ b1 && b1 ≤ 0x8F
  else isCont b1

/-- U+FFFD REPLACEMENT CHARACTER. -/
def replacementChar : Char := Char.ofNat 0xFFFD

/-- Decode one UTF-8 scalar starting at byte `b`, returning the decoded (or
replacement) character and how many further bytes of `rest` were consumed.
On an invalid sequence the maximal valid prefix is consumed and one
replacement character emitted, as in Rust's `String::from_utf8_lossy`. -/
def utf8DecodeOne (b : Nat) (rest : List Nat) : Char × Nat :=
  if b < 0x80 then (Char.ofNat b, 0)
  else if 0xC2 ≤ b && b ≤ 0xDF then
    match rest with
    | b1 :: _ =>
      if isCont b1 then (Char.ofNat ((b - 0xC0) * 0x40 + (b1 - 0x80)), 1)
      else (replacementChar, 0)
    | [] => (replacementChar, 0)
  else if 0xE0 ≤ b && b ≤ 0xEF then
    match rest with
    | b1 :: rest2 =>
      if cont3Valid b b1 then
        match rest2 with
        | b2 :: _ =>
          if isCont b2 then
            (Char.ofNat (((b - 0xE0) * 0x40 + (b1 - 0x80)) * 0x40 + (b2 - 0x80)), 2)
          else (replacementChar, 1)
        | [] => (replacementChar, 1)
      else (replacementChar, 0)
    | [] => (replacementChar, 0)
  else if 0xF0 ≤ b && b ≤ 0xF4 then
    match rest with
    | b1 :: rest2 =>
      if cont4Valid b b1 then
        match rest2 with
        | b2 :: rest3 =>
          if isCont b2 then
            match rest3 with
            | b3 :: _ =>
              if isCont b3 then
                (Char.ofNat ((((b - 0xF0) * 0x40 + (b1 - 0x80)) * 0x40 + (b2 - 0x80)) * 0x40
                  + (b3 - 0x80)), 3)
              else (replacementChar, 2)
            | [] => (replacementChar, 2)
          else (replacementChar, 1)
        | [] => (replacementChar, 1)
      else (replacementChar, 0)
    | [] => (replacementChar, 0)
  else (replacementChar, 0)

/-- The character sequence produced by lossy UTF-8 decoding. -/
def utf8LossyChars : List Nat → List Char
  | [] => []
  | b :: rest =>
    let p := utf8DecodeOne b rest
    p.1 :: utf8LossyChars (rest.drop p.2)
termination_by l => l.length
decreasing_by simp [List.length_drop]; omega

/-- Models Rust's `String::from_utf8_lossy`: total, never fails, replaces
invalid sequences with U+FFFD. -/
def utf8Lossy (bs : Bytes) : String := ⟨utf8LossyChars bs⟩

/-- The UTF-8 encoding of one Unicode scalar value. -/
def utf8EncodeChar (c : Char) : List Nat :=
  let n := c.toNat
  if n < 0x80 then [n]
  else if n < 0x800 then [0xC0 + n / 0x40, 0x80 + n % 0x40]
  else if n < 0x10000 then
    [0xE0 + n / 0x1000, 0x80 + n / 0x40 % 0x40, 0x80 + n % 0x40]
  else
    [0xF0 + n / 0x40000, 0x80 + n / 0x1000 % 0x40, 0x80 + n / 0x40 % 0x40,
      0x80 + n % 0x40]

/-- The UTF-8 encoding of a string. -/
def utf8Encode (s : String) : Bytes := s.data.flatMap utf8EncodeChar

/-! ## Size estimators (lines 139-158, 183-197, 217-224 of `event.rs`) -/

/-- Modelled from the spec: `ByteSizeOf::allocated_bytes` for `String`
(vector-core, outside `src/`): the heap-resident byte cost, i.e. the UTF-8
byte length. -/
def stringAllocatedBytes (s : String) : Nat := s.utf8ByteSize

/-- Modelled from the spec: `allocated_bytes` of a fixed-size `i64` is
zero. -/
def intAllocatedBytes (_t : Int) : Nat := 0

/-- Modelled from the spec: `allocated_bytes` of a `Bytes` payload is its
byte length. -/
def bytesAllocatedBytes (b : Bytes) : Nat := b.length

/-- `impl ByteSizeOf for LokiEvent` (lines 139-143): timestamp plus payload
only. -/
def lokiEventAllocatedBytes (e : LokiEvent) : Nat :=
  intAllocatedBytes e.timestamp + bytesAllocatedBytes e.event

/-- `impl ByteSizeOf for PartitionKey` (lines 217-224). -/
def partitionKeyAllocatedBytes (k : PartitionKey) : Nat :=
  match k.tenant_id with
  | some v => stringAllocatedBytes v
  | none => 0

/-- `impl ByteSizeOf for LokiRecord` (lines 183-191): partition key, label
strings, event. -/
def lokiRecordAllocatedBytes (r : LokiRecord) : Nat :=
  partitionKeyAllocatedBytes r.partition
    + r.labels.foldl
        (fun res item => res + stringAllocatedBytes item.1 + stringAllocatedBytes item.2) 0
    + lokiEventAllocatedBytes r.event

/-- Modelled from the spec: `EstimatedJsonEncodedSizeOf` for `i64`
(vector-core, outside `src/`): the length of the decimal rendering of the
timestamp. -/
def intJsonSize (t : Int) : Nat := (toString t).length

/-- Modelled from the spec: `EstimatedJsonEncodedSizeOf` for `Bytes`
(vector-core, outside `src/`): the estimated length of the event text after
lossy binary-to-text conversion. -/
def bytesJsonSize (b : Bytes) : Nat := (utf8LossyChars b).length

/-- `static BRACKETS_SIZE: usize = 2`. -/
def bracketsSize : Nat := 2

/-- `static COLON_SIZE: usize = 1`. -/
def colonSize : Nat := 1

/-- `static QUOTES_SIZE: usize = 2`. -/
def quotesSize : Nat := 2

/-- `impl EstimatedJsonEncodedSizeOf for LokiEvent` (lines 146-158). -/
def lokiEventEstimatedJsonSize (e : LokiEvent) : Nat :=
  bracketsSize + quotesSize + intJsonSize e.timestamp + colonSize
    + bytesJsonSize e.event

/-- `impl EstimatedJsonEncodedSizeOf for LokiRecord` (lines 193-197): the
event's estimate only. -/
def lokiRecordEstimatedJsonSize (r : LokiRecord) : Nat :=
  lokiEventEstimatedJsonSize r.event

/-! ## Serialization (lines 160-173) and the dual-format encoder
(lines 24-65) -/

/-- A JSON value (the target of `serde_json`). -/
inductive Json where
  | str : String → Json
  | num : Int → Json
  | arr : List Json → Json
  | obj : List (String × Json) → Json

/-- `impl Serialize for LokiEvent` (lines 160-173): a 4-element sequence of
timestamp-as-decimal-string, lossy event text, tags, attachment. -/
def serializeLokiEvent (e : LokiEvent) : Json :=
  .arr [.str (toString e.timestamp), .str (utf8Lossy e.event),
    .arr (e.tags.map .str), .obj (e.attachment.map fun p => (p.1, .str p.2))]

/-- The derived `Serialize` for `LokiStream`: an object with a `stream`
label-mapping field and a `values` field. -/
def serializeLokiStream (s : LokiStream) : Json :=
  .obj [("stream", .obj (s.stream.map fun p => (p.1, Json.str p.2))),
    ("values", .arr (s.values.map serializeLokiEvent))]

/-- One hexadecimal digit. -/
def hexDigit (n : Nat) : Char :=
  if n < 10 then Char.ofNat (48 + n) else Char.ofNat (87 + n)

/-- JSON string escaping of one character (quote, backslash, control
characters). -/
def jsonEscChar (c : Char) : List Char :=
  if c = '"' then ['\\', '"']
  else if c = '\\' then ['\\', '\\']
  else if c.toNat < 0x20 then
    ['\\', 'u', '0', '0', hexDigit (c.toNat / 16), hexDigit (c.toNat % 16)]
  else [c]

/-- Render a JSON value to characters (compact, as `serde_json::to_vec`). -/
def jsonRender : Json → List Char
  | .str s => '"' :: s.data.flatMap jsonEscChar ++ ['"']
  | .num n => (toString n).data
  | .arr l =>
    '[' :: (List.intercalate [','] (l.attach.map fun x => jsonRender x.1)) ++ [']']
  | .obj l =>
    Char.ofNat 123 ::
      (List.intercalate [','] (l.attach.map fun x =>
        '"' :: x.1.1.data.flatMap jsonEscChar ++ ['"', ':'] ++ jsonRender x.1.2))
      ++ [Char.ofNat 125]
decreasing_by
  · have := List.sizeOf_lt_of_mem x.2
    simp at *
    omega
  · obtain ⟨⟨a, b⟩, hmem⟩ := x
    have := List.sizeOf_lt_of_mem hmem
    simp at *
    omega

/-- `serde_json::to_vec(&json!({ "streams": streams }))`: the text-format
body bytes. -/
def jsonBodyBytes (streams : List LokiStream) : Bytes :=
  utf8Encode ⟨jsonRender (.obj [("streams", .arr (streams.map serializeLokiStream))])⟩

/-- `loki_logproto::util::Entry` (line 48). -/
structure ProtoEntry where
  timestamp : Int
  line : String
  tags : List String
  attachment : List (String × String)
deriving DecidableEq

/-- `loki_logproto::util::Stream` (line 56). -/
structure ProtoStream where
  labels : List (String × String)
  entries : List ProtoEntry
deriving DecidableEq

/-- Lines 42-57: map a built stream to its protobuf form; the payload is
lossy-converted to text exactly as in the JSON path. -/
def protoStreamOf (s : LokiStream) : ProtoStream :=
  { labels := s.stream
    entries := s.values.map fun e =>
      { timestamp := e.timestamp, line := utf8Lossy e.event, tags := e.tags
        attachment := e.attachment } }

/-- Four little-endian bytes of a length. -/
def encNat (n : Nat) : Bytes :=
  [n % 256, n / 256 % 256, n / 65536 % 256, n / 16777216 % 256]

/-- A length-prefixed UTF-8 string. -/
def encStr (s : String) : Bytes := encNat (utf8Encode s).length ++ utf8Encode s

/-- A timestamp as a length-prefixed decimal string. -/
def encInt (t : Int) : Bytes := encStr (toString t)

/-- Modelled from the spec: one entry of the binary wire format
(timestamp, lossy text, tag list, attachment mapping), self-delimited. -/
def encEntry (e : ProtoEntry) : Bytes :=
  encInt e.timestamp ++ encStr e.line ++ encNat e.tags.length
    ++ e.tags.flatMap encStr ++ encNat e.attachment.length
    ++ e.attachment.flatMap fun p => encStr p.1 ++ encStr p.2

/-- Modelled from the spec: one stream of the binary wire format (label
list plus entries). -/
def encStream (s : ProtoStream) : Bytes :=
  encNat s.labels.length ++ (s.labels.flatMap fun p => encStr p.1 ++ encStr p.2)
    ++ encNat s.entries.length ++ s.entries.flatMap encEntry

/-- Modelled from the spec: `loki_logproto::util::Batch::encode`
(outside `src/`): a self-delimited binary payload of the stream list. -/
def protoBatchEncode (streams : List ProtoStream) : Bytes :=
  encNat streams.length ++ streams.flatMap encStream

/-- `pub enum LokiBatchEncoding`. -/
inductive LokiBatchEncoding where
  | json
  | protobuf
deriving DecidableEq

/-- The output sink: the bodies and record counts written so far. -/
structure WriterState where
  written : List (Nat × Bytes)
deriving DecidableEq

/-- Modelled from the spec: `write_all` (in `sinks/util/encoding.rs`,
outside `src/`) writes the body bytes to the sink together with the record
count as side-channel metadata. -/
def write_all (w : WriterState) (count : Nat) (body : Bytes) : WriterState :=
  ⟨w.written ++ [(count, body)]⟩

/-- `LokiBatchEncoder::encode_input` (lines 24-65): count the input
records, build the batch, serialize it in the selected format, write body
and count, and return the body's byte length. -/
def encode_input (enc : LokiBatchEncoding) (input : List LokiRecord)
    (w : WriterState) : WriterState × Nat :=
  let count := input.length
  let batch := lokiBatchFrom input
  let body :=
    match enc with
    | .json => jsonBodyBytes (batch.stream_by_labels.map (·.2))
    | .protobuf =>
      protoBatchEncode ((batch.stream_by_labels.map (·.2)).map protoStreamOf)
  (write_all w count body, body.length)

/-- The events destined for the stream with canonical key `k`, in input
order: one per input record whose canonical key is `k`. -/
def eventsFor (records : List LokiRecord) (k : String) : List LokiEvent :=
  (records.filter fun r => recordKey r == k).map (·.event)

/-- Following the spec's words (for comparison with the implementation):
the allocated-size estimator claimed by the spec sums the payload bytes,
the tag strings, the attachment key and value strings, the label key and
value strings, and the optional tenant string, with the timestamp
contributing zero. -/
def specClaimedAllocatedBytes (r : LokiRecord) : Nat :=
  r.event.event.length
    + (r.event.tags.map stringAllocatedBytes).sum
    + (r.event.attachment.map fun p =>
        stringAllocatedBytes p.1 + stringAllocatedBytes p.2).sum
    + (r.labels.map fun p =>
        stringAllocatedBytes p.1 + stringAllocatedBytes p.2).sum
    + r.partition.tenant_id.elim 0 stringAllocatedBytes

/-- A concrete record (labels `a=1, b=2`, timestamp 100, payload `"x"`). -/
def exRecord1 : LokiRecord :=
  ⟨⟨none⟩, [("a", "1"), ("b", "2")], ⟨100, [120], [], []⟩, [1]⟩

/-- A concrete record with the same label set in the opposite order,
timestamp 50, payload `"y"`. -/
def exRecord2 : LokiRecord :=
  ⟨⟨none⟩, [("b", "2"), ("a", "1")], ⟨50, [121], [], []⟩, [2]⟩

/-- The two example records, as one batch input. -/
def exRecords : List LokiRecord := [exRecord1, exRecord2]

/-- The single stream the example batch is expected to produce. -/
def exStream : LokiStream :=
  ⟨[("a", "1"), ("b", "2")], [⟨50, [121], [], []⟩, ⟨100, [120], [], []⟩]⟩

example :
    labelsString [("k", "v,v")] = "k,v\\,v," := by decide

unseal List.merge List.mergeSort in
example :
    sortLabels [("b", "2"), ("a", "1")] = [("a", "1"), ("b", "2")] := rfl

/-! ## The label order is total, transitive and antisymmetric -/

theorem charListLE_total : ∀ as bs, charListLE as bs || charListLE bs as
  | [], _ => by simp [charListLE]
  | _ :: _, [] => by simp [charListLE]
  | a :: as, b :: bs => by
    simp only [charListLE]
    rcases lt_trichotomy a b with h | h | h
    · simp [h]
    · subst h
      simpa [lt_irrefl] using charListLE_total as bs
    · simp [h, lt_asymm h]

theorem charListLE_trans : ∀ as bs cs, charListLE as bs → charListLE bs cs →
    charListLE as cs
  | [], _, _ => by simp [charListLE]
  | _ :: _, [], _ => by simp [charListLE]
  | _ :: _, _ :: _, [] => by simp [charListLE]
  | a :: as, b :: bs, c :: cs => by
    simp only [charListLE]
    rcases lt_trichotomy a b with hab | hab | hab
    · rcases lt_trichotomy b c with hbc | hbc | hbc
      · simp [hab, lt_trans hab hbc]
      · subst hbc
        simp [hab]
      · simp [hbc, lt_asymm hbc]
    · subst hab
      rcases lt_trichotomy a c with hac | hac | hac
      · simp [hac, lt_irrefl]
      · subst hac
        simpa [lt_irrefl] using charListLE_trans as bs cs
      · simp [hac, lt_asymm hac, lt_irrefl]
    · simp [hab, lt_asymm hab]

theorem charListLE_antisymm : ∀ as bs, charListLE as bs → charListLE bs as →
    as = bs
  | [], [] => by simp
  | [], _ :: _ => by simp [charListLE]
  | _ :: _, [] => by simp [charListLE]
  | a :: as, b :: bs => by
    simp only [charListLE]
    rcases lt_trichotomy a b with h | h | h
    · simp [h, lt_asymm h]
    · subst h
      simp only [lt_irrefl, if_false]
      intro h1 h2
      simp [charListLE_antisymm as bs h1 h2]
    · simp [h, lt_asymm h]

theorem strLE_total (s t : String) : strLE s t || strLE t s :=
  charListLE_total s.data t.data

theorem strLE_trans {s t u : String} (h1 : strLE s t) (h2 : strLE t u) :
    strLE s u :=
  charListLE_trans s.data t.data u.data h1 h2

theorem strLE_antisymm {s t : String} (h1 : strLE s t) (h2 : strLE t s) :
    s = t := by
  apply String.ext
  exact charListLE_antisymm s.data t.data h1 h2

theorem pairLE_total (a b : String × String) : pairLE a b || pairLE b a := by
  unfold pairLE
  by_cases h : a.1 = b.1
  · simp [h, strLE_total]
  · simp [h, Ne.symm h, strLE_total]

theorem pairLE_trans {a b c : String × String} (h1 : pairLE a b)
    (h2 : pairLE b c) : pairLE a c := by
  unfold pairLE at *
  by_cases hab : a.1 = b.1 <;> by_cases hbc : b.1 = c.1
  · rw [if_pos hab] at h1
    rw [if_pos hbc] at h2
    rw [if_pos (hab.trans hbc)]
    exact strLE_trans h1 h2
  · rw [if_pos hab] at h1
    rw [if_neg hbc] at h2
    rw [if_neg fun h => hbc (hab.symm.trans h)]
    rw [hab]
    exact h2
  · rw [if_neg hab] at h1
    rw [if_pos hbc] at h2
    rw [if_neg fun h => hab (h.trans hbc.symm)]
    rw [← hbc]
    exact h1
  · rw [if_neg hab] at h1
    rw [if_neg hbc] at h2
    by_cases hac : a.1 = c.1
    · exact absurd (strLE_antisymm h1 (hac ▸ h2)) hab
    · rw [if_neg hac]
      exact strLE_trans h1 h2

theorem pairLE_antisymm : ∀ a b : String × String, pairLE a b → pairLE b a →
    a = b := by
  intro a b h1 h2
  unfold pairLE at h1 h2
  by_cases hab : a.1 = b.1
  · rw [if_pos hab] at h1
    rw [if_pos hab.symm] at h2
    exact Prod.ext hab (strLE_antisymm h1 h2)
  · rw [if_neg hab] at h1
    rw [if_neg (Ne.symm hab)] at h2
    exact absurd (strLE_antisymm h1 h2) hab

theorem pairLE_total_bool (a b : String × String) :
    pairLE a b || pairLE b a := pairLE_total a b

/-- `sortLabels` really sorts: its output is ordered by `pairLE`. -/
theorem sortLabels_sorted (l : Labels) :
    (sortLabels l).Pairwise fun a b => pairLE a b = true := by
  exact @List.sorted_mergeSort _ pairLE
    (fun a b c h1 h2 => pairLE_trans h1 h2)
    (fun a b => pairLE_total a b) l

/-- `sortLabels` is a permutation of its input. -/
theorem sortLabels_perm (l : Labels) : (sortLabels l).Perm l :=
  List.mergeSort_perm l pairLE

/-- Two label lists that are permutations of each other sort to the same
canonical order. -/
theorem sortLabels_eq_of_perm {l1 l2 : Labels} (h : l1.Perm l2) :
    sortLabels l1 = sortLabels l2 := by
  haveI : IsAntisymm (String × String) (fun a b => pairLE a b = true) :=
    ⟨pairLE_antisymm⟩
  exact List.eq_of_perm_of_sorted
    (((sortLabels_perm l1).trans h).trans (sortLabels_perm l2).symm)
    (sortLabels_sorted l1) (sortLabels_sorted l2)

/-! ## The grouping key is injective -/

theorem escapeChar_data (c : Char) : (escapeChar c).data = escChar c := by
  unfold escapeChar escChar
  split
  · rfl
  · split <;> rfl

theorem foldl_append_data : ∀ (l : List String) (init : String),
    (l.foldl (· ++ ·) init).data = init.data ++ l.flatMap String.data
  | [], init => by simp
  | s :: rest, init => by
    simp [foldl_append_data rest (init ++ s)]

theorem flatMap_map_escapeChar_data (l : List Char) :
    (List.map escapeChar l).flatMap String.data = l.flatMap escChar := by
  induction l with
  | nil => rfl
  | cons c cs ih => simp [ih, escapeChar_data]

theorem escapeLabelPart_data (s : String) :
    (escapeLabelPart s).data = s.data.flatMap escChar ++ [','] := by
  unfold escapeLabelPart
  rw [String.data_append, foldl_append_data, flatMap_map_escapeChar_data]
  rfl

theorem tokens_data (l : Labels) :
    (List.map escapeLabelPart (l.flatMap fun p => [p.1, p.2])).flatMap String.data
      = (l.flatMap fun p => [p.1.data, p.2.data]).flatMap
          fun t => t.flatMap escChar ++ [','] := by
  induction l with
  | nil => rfl
  | cons p l ih => simp [escapeLabelPart_data, ih]

theorem labelsString_data (l : Labels) :
    (labelsString l).data = encTokens (labelTokens l) := by
  unfold labelsString encTokens labelTokens
  rw [foldl_append_data]
  simpa using tokens_data l

theorem decodeAux_nil (acc : List Char) :
    decodeAux [] acc = if acc.isEmpty then some [] else none := by
  simp [decodeAux]

theorem decodeAux_comma (rest acc : List Char) :
    decodeAux (',' :: rest) acc
      = (decodeAux rest []).map fun ts => acc.reverse :: ts := by
  rw [decodeAux.eq_def]
  simp

theorem decodeAux_backslash (d : Char) (rest acc : List Char) :
    decodeAux ('\\' :: d :: rest) acc = decodeAux rest (d :: acc) := by
  rw [decodeAux.eq_def]
  simp

theorem decodeAux_other {c : Char} (hc1 : c ≠ ',') (hc2 : c ≠ '\\')
    (rest acc : List Char) :
    decodeAux (c :: rest) acc = decodeAux rest (c :: acc) := by
  rw [decodeAux.eq_def]
  simp [hc1, hc2]

theorem decodeAux_flatMap_escChar : ∀ (t rest acc : List Char),
    decodeAux (t.flatMap escChar ++ rest) acc = decodeAux rest (t.reverse ++ acc)
  | [], rest, acc => by simp
  | c :: t, rest, acc => by
    by_cases h1 : c = '\\'
    · subst h1
      rw [show ('\\' :: t).flatMap escChar ++ rest
          = '\\' :: '\\' :: (t.flatMap escChar ++ rest) from by simp [escChar]]
      rw [decodeAux_backslash, decodeAux_flatMap_escChar t rest]
      simp
    · by_cases h2 : c = ','
      · subst h2
        rw [show (',' :: t).flatMap escChar ++ rest
            = '\\' :: ',' :: (t.flatMap escChar ++ rest) from by simp [escChar]]
        rw [decodeAux_backslash, decodeAux_flatMap_escChar t rest]
        simp
      · rw [show (c :: t).flatMap escChar ++ rest
            = c :: (t.flatMap escChar ++ rest) from by simp [escChar, h1, h2]]
        rw [decodeAux_other h2 h1, decodeAux_flatMap_escChar t rest]
        simp

theorem decodeTokens_encTokens : ∀ ts, decodeTokens (encTokens ts) = some ts
  | [] => by simp [decodeTokens, encTokens, decodeAux_nil]
  | t :: ts => by
    have ih := decodeTokens_encTokens ts
    unfold decodeTokens at ih ⊢
    rw [show encTokens (t :: ts) = t.flatMap escChar ++ (',' :: encTokens ts) from by
      simp [encTokens]]
    rw [decodeAux_flatMap_escChar, decodeAux_comma, ih]
    simp

theorem encTokens_injective {ts1 ts2 : List (List Char)}
    (h : encTokens ts1 = encTokens ts2) : ts1 = ts2 := by
  have h1 := decodeTokens_encTokens ts1
  rw [h, decodeTokens_encTokens ts2] at h1
  exact (Option.some_inj.mp h1).symm

theorem pairUp_labelTokens : ∀ l : Labels, pairUp (labelTokens l) = some l
  | [] => rfl
  | p :: l => by
    rw [show labelTokens (p :: l) = p.1.data :: p.2.data :: labelTokens l from by
      simp [labelTokens]]
    rw [pairUp, pairUp_labelTokens l]
    rfl

theorem decodeLabels_labelsString (l : Labels) :
    decodeLabels (labelsString l) = some l := by
  unfold decodeLabels decodeTokens
  rw [labelsString_data]
  have h := decodeTokens_encTokens (labelTokens l)
  unfold decodeTokens at h
  rw [h]
  simp [pairUp_labelTokens]

/-- The canonical grouping key determines the full label list it was built
from: escaping makes the key injective. -/
theorem labelsString_injective {l1 l2 : Labels}
    (h : labelsString l1 = labelsString l2) : l1 = l2 := by
  have h1 := decodeLabels_labelsString l1
  rw [h, decodeLabels_labelsString l2] at h1
  exact (Option.some_inj.mp h1).symm

/-! ## Characterization of the grouping fold -/

theorem streamLookup_cons (x : String × LokiStream)
    (m : List (String × LokiStream)) (k : String) :
    streamLookup (x :: m) k = if x.1 = k then some x.2 else streamLookup m k := by
  by_cases h : x.1 = k <;> simp [streamLookup, List.find?_cons, h]

theorem streamLookup_streamPush_self : ∀ {m : List (String × LokiStream)}
    {k : String} {s : LokiStream}, streamLookup m k = some s → ∀ e,
    streamLookup (streamPush m k e) k = some ⟨s.stream, s.values ++ [e]⟩
  | [], k, s => by simp [streamLookup]
  | p :: rest, k, s => by
    intro h e
    rw [streamLookup_cons] at h
    by_cases hpk : p.1 = k
    · rw [if_pos hpk] at h
      cases h
      rw [streamPush, if_pos hpk, streamLookup_cons, if_pos hpk]
    · rw [if_neg hpk] at h
      rw [streamPush, if_neg hpk, streamLookup_cons, if_neg hpk]
      exact streamLookup_streamPush_self h e

theorem streamLookup_streamPush_ne : ∀ (m : List (String × LokiStream))
    {k k' : String}, k ≠ k' → ∀ e,
    streamLookup (streamPush m k' e) k = streamLookup m k
  | [], k, k' => by simp [streamPush]
  | p :: rest, k, k' => by
    intro hne e
    by_cases hpk : p.1 = k'
    · rw [streamPush, if_pos hpk, streamLookup_cons, streamLookup_cons]
      simp only [hpk]
      rw [if_neg (Ne.symm hne), if_neg (Ne.symm hne)]
    · rw [streamPush, if_neg hpk, streamLookup_cons, streamLookup_cons]
      by_cases hk : p.1 = k
      · rw [if_pos hk, if_pos hk]
      · rw [if_neg hk, if_neg hk]
        exact streamLookup_streamPush_ne rest hne e

theorem streamLookup_append (m m' : List (String × LokiStream)) (k : String) :
    streamLookup (m ++ m') k
      = match streamLookup m k with
        | some s => some s
        | none => streamLookup m' k := by
  induction m with
  | nil => simp [streamLookup]
  | cons x m ih =>
    rw [List.cons_append, streamLookup_cons, streamLookup_cons]
    by_cases h : x.1 = k
    · rw [if_pos h, if_pos h]
    · rw [if_neg h, if_neg h, ih]

theorem streamLookup_stepStreams_self_some {m : List (String × LokiStream)}
    {item : LokiRecord} {s : LokiStream}
    (h : streamLookup m (recordKey item) = some s) :
    streamLookup (stepStreams m item) (recordKey item)
      = some ⟨s.stream, s.values ++ [item.event]⟩ := by
  unfold stepStreams
  rw [h]
  simp only [Option.isSome_some, if_true]
  exact streamLookup_streamPush_self h item.event

theorem streamLookup_stepStreams_self_none {m : List (String × LokiStream)}
    {item : LokiRecord} (h : streamLookup m (recordKey item) = none) :
    streamLookup (stepStreams m item) (recordKey item)
      = some ⟨collectMap (sortLabels item.labels), [item.event]⟩ := by
  unfold stepStreams
  rw [h]
  simp only [Option.isSome_none, Bool.false_eq_true, if_false]
  have hlook : streamLookup
      (m ++ [(recordKey item, ⟨collectMap (sortLabels item.labels), []⟩)])
      (recordKey item)
      = some ⟨collectMap (sortLabels item.labels), []⟩ := by
    rw [streamLookup_append, h, streamLookup_cons]
    simp
  have := streamLookup_streamPush_self hlook item.event
  simpa using this

theorem streamLookup_stepStreams_ne {k : String} {item : LokiRecord}
    (h : k ≠ recordKey item) (m : List (String × LokiStream)) :
    streamLookup (stepStreams m item) k = streamLookup m k := by
  unfold stepStreams
  by_cases hm : (streamLookup m (recordKey item)).isSome
  · rw [if_pos hm]
    exact streamLookup_streamPush_ne _ h item.event
  · rw [if_neg hm]
    rw [streamLookup_streamPush_ne _ h item.event]
    rw [streamLookup_append]
    cases hk : streamLookup m k with
    | some s => rfl
    | none =>
      rw [streamLookup_cons, if_neg (Ne.symm h)]
      simp [streamLookup]

theorem streamLookup_foldl_some : ∀ (rs : List LokiRecord)
    {m : List (String × LokiStream)} {k : String} {s : LokiStream},
    streamLookup m k = some s →
    streamLookup (rs.foldl stepStreams m) k
      = some ⟨s.stream, s.values ++ eventsFor rs k⟩
  | [], m, k, s => by
    intro h
    simpa [eventsFor] using h
  | r :: rs, m, k, s => by
    intro h
    rw [List.foldl_cons]
    by_cases hk : recordKey r = k
    · subst hk
      rw [streamLookup_foldl_some rs (streamLookup_stepStreams_self_some h)]
      simp [eventsFor]
    · rw [streamLookup_foldl_some rs ((streamLookup_stepStreams_ne (Ne.symm hk) m).trans h)]
      simp [eventsFor, hk]

theorem streamLookup_foldl_none : ∀ (rs : List LokiRecord)
    {m : List (String × LokiStream)} {k : String},
    streamLookup m k = none →
    streamLookup (rs.foldl stepStreams m) k
      = match rs.filter (fun r => recordKey r == k) with
        | [] => none
        | r :: _ => some ⟨collectMap (sortLabels r.labels), eventsFor rs k⟩
  | [], m, k => by
    intro h
    simpa using h
  | r :: rs, m, k => by
    intro h
    rw [List.foldl_cons]
    by_cases hk : recordKey r = k
    · subst hk
      rw [streamLookup_foldl_some rs (streamLookup_stepStreams_self_none h)]
      simp [eventsFor]
    · rw [streamLookup_foldl_none rs ((streamLookup_stepStreams_ne (Ne.symm hk) m).trans h)]
      simp [eventsFor, hk]

theorem foldl_stepBatch_streams : ∀ (rs : List LokiRecord) (b : LokiBatch),
    (rs.foldl stepBatch b).stream_by_labels
      = rs.foldl stepStreams b.stream_by_labels
  | [], b => rfl
  | r :: rs, b => by
    rw [List.foldl_cons, List.foldl_cons, foldl_stepBatch_streams rs]
    rfl

theorem streamLookup_map_sort (m : List (String × LokiStream)) (k : String) :
    streamLookup
        (m.map fun p => (p.1, { p.2 with values := p.2.values.mergeSort eventLE })) k
      = (streamLookup m k).map
          fun s => { s with values := s.values.mergeSort eventLE } := by
  induction m with
  | nil => simp [streamLookup]
  | cons x m ih =>
    rw [List.map_cons, streamLookup_cons, streamLookup_cons]
    by_cases h : x.1 = k
    · rw [if_pos h, if_pos h]
      rfl
    · rw [if_neg h, if_neg h, ih]

/-- Full characterization of a built batch's stream map: the stream under
key `k` exists iff some record has canonical key `k`; its label mapping is
collected from the first such record's sorted labels, and its values are
the stable timestamp-sort of all such records' events in input order. -/
theorem lokiBatchFrom_lookup (rs : List LokiRecord) (k : String) :
    streamLookup (lokiBatchFrom rs).stream_by_labels k
      = match rs.filter (fun r => recordKey r == k) with
        | [] => none
        | r :: _ => some ⟨collectMap (sortLabels r.labels),
            (eventsFor rs k).mergeSort eventLE⟩ := by
  unfold lokiBatchFrom
  simp only
  rw [foldl_stepBatch_streams, streamLookup_map_sort]
  rw [streamLookup_foldl_none rs (show streamLookup [] k = none from rfl)]
  cases rs.filter (fun r => recordKey r == k) with
  | nil => rfl
  | cons r l => rfl

/-! ## Event counting -/

theorem streamPush_count : ∀ (m : List (String × LokiStream)) (k : String)
    (e : LokiEvent), (streamLookup m k).isSome →
    ((streamPush m k e).map fun p => p.2.values.length).sum
      = ((m.map fun p => p.2.values.length).sum) + 1
  | [], k, e => by simp [streamLookup]
  | p :: rest, k, e => by
    intro h
    rw [streamLookup_cons] at h
    by_cases hpk : p.1 = k
    · rw [streamPush, if_pos hpk]
      simp only [List.map_cons, List.sum_cons, List.length_append,
        List.length_cons, List.length_nil]
      omega
    · rw [if_neg hpk] at h
      rw [streamPush, if_neg hpk]
      simp only [List.map_cons, List.sum_cons,
        streamPush_count rest k e h]
      omega

theorem stepStreams_count (m : List (String × LokiStream)) (item : LokiRecord) :
    ((stepStreams m item).map fun p => p.2.values.length).sum
      = ((m.map fun p => p.2.values.length).sum) + 1 := by
  unfold stepStreams
  by_cases hm : (streamLookup m (recordKey item)).isSome
  · rw [if_pos hm, streamPush_count m _ _ hm]
  · rw [if_neg hm]
    have hlook : (streamLookup
        (m ++ [(recordKey item, ⟨collectMap (sortLabels item.labels), []⟩)])
        (recordKey item)).isSome := by
      rw [streamLookup_append]
      cases hk : streamLookup m (recordKey item) with
      | some s => simp
      | none =>
        rw [streamLookup_cons]
        simp
    rw [streamPush_count _ _ _ hlook]
    simp

theorem foldl_stepStreams_count : ∀ (rs : List LokiRecord)
    (m : List (String × LokiStream)),
    (((rs.foldl stepStreams m).map fun p => p.2.values.length).sum)
      = ((m.map fun p => p.2.values.length).sum) + rs.length
  | [], m => by simp
  | r :: rs, m => by
    rw [List.foldl_cons, foldl_stepStreams_count rs, stepStreams_count]
    simp only [List.length_cons]
    omega

/-! ## The stream keys stay distinct -/

theorem streamPush_keys : ∀ (m : List (String × LokiStream)) (k : String)
    (e : LokiEvent), (streamPush m k e).map Prod.fst = m.map Prod.fst
  | [], _, _ => rfl
  | p :: rest, k, e => by
    by_cases hpk : p.1 = k
    · rw [streamPush, if_pos hpk]
      simp
    · rw [streamPush, if_neg hpk]
      simp [streamPush_keys rest k e]

theorem streamLookup_eq_none_iff (m : List (String × LokiStream)) (k : String) :
    streamLookup m k = none ↔ k ∉ m.map Prod.fst := by
  unfold streamLookup
  rw [Option.map_eq_none', List.find?_eq_none]
  simp only [beq_iff_eq, List.mem_map]
  constructor
  · rintro h ⟨p, hp, rfl⟩
    exact h p hp rfl
  · rintro h p hp rfl
    exact h ⟨p, hp, rfl⟩

theorem stepStreams_keys_nodup {m : List (String × LokiStream)}
    (h : (m.map Prod.fst).Nodup) (item : LokiRecord) :
    ((stepStreams m item).map Prod.fst).Nodup := by
  unfold stepStreams
  by_cases hm : (streamLookup m (recordKey item)).isSome
  · rw [if_pos hm, streamPush_keys]
    exact h
  · rw [if_neg hm, streamPush_keys]
    have hnone : streamLookup m (recordKey item) = none := by
      cases hk : streamLookup m (recordKey item) with
      | some s => rw [hk] at hm; simp at hm
      | none => rfl
    rw [List.map_append]
    simp only [List.map_cons, List.map_nil]
    rw [List.nodup_append]
    refine ⟨h, List.nodup_singleton _, ?_⟩
    intro a ha hb
    simp only [List.mem_singleton] at hb
    subst hb
    exact (streamLookup_eq_none_iff m (recordKey item)).mp hnone ha

theorem foldl_stepStreams_keys_nodup : ∀ (rs : List LokiRecord)
    {m : List (String × LokiStream)}, (m.map Prod.fst).Nodup →
    (((rs.foldl stepStreams m).map Prod.fst)).Nodup
  | [], m => fun h => h
  | r :: rs, m => fun h =>
    foldl_stepStreams_keys_nodup rs (stepStreams_keys_nodup h r)

theorem lokiBatchFrom_keys_nodup (rs : List LokiRecord) :
    ((lokiBatchFrom rs).stream_by_labels.map Prod.fst).Nodup := by
  unfold lokiBatchFrom
  simp only
  rw [foldl_stepBatch_streams]
  have h := foldl_stepStreams_keys_nodup rs
    (show (([] : List (String × LokiStream)).map Prod.fst).Nodup by simp)
  simpa [List.map_map, Function.comp] using h

/-! ## UTF-8 lossy decoding: total, linear, exact on valid input -/

theorem utf8LossyChars_nil : utf8LossyChars [] = [] := by
  rw [utf8LossyChars]

theorem utf8LossyChars_cons (b : Nat) (rest : List Nat) :
    utf8LossyChars (b :: rest)
      = (utf8DecodeOne b rest).1
          :: utf8LossyChars (rest.drop (utf8DecodeOne b rest).2) := by
  rw [utf8LossyChars]

/-- Lossy decoding never yields more characters than input bytes: the
estimated text length is linear in the payload length. -/
theorem utf8LossyChars_length_le : ∀ bs : List Nat,
    (utf8LossyChars bs).length ≤ bs.length
  | [] => by simp [utf8LossyChars_nil]
  | b :: rest => by
    rw [utf8LossyChars_cons]
    have ih := utf8LossyChars_length_le (rest.drop (utf8DecodeOne b rest).2)
    have hd : (rest.drop (utf8DecodeOne b rest).2).length ≤ rest.length := by
      simp [List.length_drop]
    simp only [List.length_cons]
    omega
termination_by bs => bs.length
decreasing_by simp [List.length_drop]; omega

theorem utf8DecodeOne_ascii {n : Nat} (h : n < 0x80) (rest : List Nat) :
    utf8DecodeOne n rest = (Char.ofNat n, 0) := by
  unfold utf8DecodeOne
  rw [if_pos h]

theorem utf8DecodeOne_two {n : Nat} (h1 : 0x80 ≤ n) (h2 : n < 0x800)
    (rest : List Nat) :
    utf8DecodeOne (0xC0 + n / 0x40) ((0x80 + n % 0x40) :: rest)
      = (Char.ofNat n, 1) := by
  unfold utf8DecodeOne
  rw [if_neg (by omega)]
  rw [if_pos (show ((0xC2 ≤ 0xC0 + n / 0x40 : Bool)
      && (0xC0 + n / 0x40 ≤ 0xDF : Bool)) = true by
    simp only [Bool.and_eq_true, decide_eq_true_eq]
    omega)]
  dsimp only
  rw [if_pos (show isCont (0x80 + n % 0x40) = true by
    simp only [isCont, Bool.and_eq_true, decide_eq_true_eq]
    omega)]
  rw [show (0xC0 + n / 0x40 - 0xC0) * 0x40 + (0x80 + n % 0x40 - 0x80) = n by
    omega]

theorem utf8DecodeOne_three {n : Nat} (h1 : 0x800 ≤ n) (h2 : n < 0x10000)
    (hs : n < 0xD800 ∨ 0xDFFF < n) (rest : List Nat) :
    utf8DecodeOne (0xE0 + n / 0x1000)
        ((0x80 + n / 0x40 % 0x40) :: (0x80 + n % 0x40) :: rest)
      = (Char.ofNat n, 2) := by
  unfold utf8DecodeOne
  rw [if_neg (by omega)]
  rw [if_neg (show ¬((0xC2 ≤ 0xE0 + n / 0x1000 : Bool)
      && (0xE0 + n / 0x1000 ≤ 0xDF : Bool)) = true by
    simp only [Bool.and_eq_true, decide_eq_true_eq]
    omega)]
  rw [if_pos (show ((0xE0 ≤ 0xE0 + n / 0x1000 : Bool)
      && (0xE0 + n / 0x1000 ≤ 0xEF : Bool)) = true by
    simp only [Bool.and_eq_true, decide_eq_true_eq]
    omega)]
  dsimp only
  rw [if_pos (show cont3Valid (0xE0 + n / 0x1000) (0x80 + n / 0x40 % 0x40) = true by
    unfold cont3Valid isCont
    split
    · rename_i hE0
      simp only [Bool.and_eq_true, decide_eq_true_eq]
      omega
    · split
      · rename_i hne hED
        simp only [Bool.and_eq_true, decide_eq_true_eq]
        rcases hs with h | h <;> omega
      · simp only [Bool.and_eq_true, decide_eq_true_eq]
        omega)]
  rw [if_pos (show isCont (0x80 + n % 0x40) = true by
    simp only [isCont, Bool.and_eq_true, decide_eq_true_eq]
    omega)]
  rw [show ((0xE0 + n / 0x1000 - 0xE0) * 0x40 + (0x80 + n / 0x40 % 0x40 - 0x80))
      * 0x40 + (0x80 + n % 0x40 - 0x80) = n by omega]

theorem utf8DecodeOne_four {n : Nat} (h1 : 0x10000 ≤ n) (h2 : n < 0x110000)
    (rest : List Nat) :
    utf8DecodeOne (0xF0 + n / 0x40000)
        ((0x80 + n / 0x1000 % 0x40) :: (0x80 + n / 0x40 % 0x40)
          :: (0x80 + n % 0x40) :: rest)
      = (Char.ofNat n, 3) := by
  unfold utf8DecodeOne
  rw [if_neg (by omega)]
  rw [if_neg (show ¬((0xC2 ≤ 0xF0 + n / 0x40000 : Bool)
      && (0xF0 + n / 0x40000 ≤ 0xDF : Bool)) = true by
    simp only [Bool.and_eq_true, decide_eq_true_eq]
    omega)]
  rw [if_neg (show ¬((0xE0 ≤ 0xF0 + n / 0x40000 : Bool)
      && (0xF0 + n / 0x40000 ≤ 0xEF : Bool)) = true by
    simp only [Bool.and_eq_true, decide_eq_true_eq]
    omega)]
  rw [if_pos (show ((0xF0 ≤ 0xF0 + n / 0x40000 : Bool)
      && (0xF0 + n / 0x40000 ≤ 0xF4 : Bool)) = true by
    simp only [Bool.and_eq_true, decide_eq_true_eq]
    omega)]
  dsimp only
  rw [if_pos (show cont4Valid (0xF0 + n / 0x40000) (0x80 + n / 0x1000 % 0x40) = true by
    unfold cont4Valid isCont
    split
    · rename_i hF0
      simp only [Bool.and_eq_true, decide_eq_true_eq]
      omega
    · split
      · rename_i hne hF4
        simp only [Bool.and_eq_true, decide_eq_true_eq]
        omega
      · simp only [Bool.and_eq_true, decide_eq_true_eq]
        omega)]
  rw [if_pos (show isCont (0x80 + n / 0x40 % 0x40) = true by
    simp only [isCont, Bool.and_eq_true, decide_eq_true_eq]
    omega)]
  rw [if_pos (show isCont (0x80 + n % 0x40) = true by
    simp only [isCont, Bool.and_eq_true, decide_eq_true_eq]
    omega)]
  rw [show (((0xF0 + n / 0x40000 - 0xF0) * 0x40 + (0x80 + n / 0x1000 % 0x40 - 0x80))
      * 0x40 + (0x80 + n / 0x40 % 0x40 - 0x80)) * 0x40 + (0x80 + n % 0x40 - 0x80)
      = n by omega]

/-- Lossy decoding inverts UTF-8 encoding character by character: valid
runs are preserved exactly. -/
theorem utf8LossyChars_encodeChar (c : Char) (rest : List Nat) :
    utf8LossyChars (utf8EncodeChar c ++ rest) = c :: utf8LossyChars rest := by
  have hval : c.toNat < 0xD800 ∨ (0xDFFF < c.toNat ∧ c.toNat < 0x110000) := c.valid
  unfold utf8EncodeChar
  dsimp only
  by_cases hc1 : c.toNat < 0x80
  · rw [if_pos hc1, List.singleton_append, utf8LossyChars_cons,
      utf8DecodeOne_ascii hc1]
    simp [Char.ofNat_toNat]
  · rw [if_neg hc1]
    by_cases hc2 : c.toNat < 0x800
    · rw [if_pos hc2]
      rw [show [0xC0 + c.toNat / 0x40, 0x80 + c.toNat % 0x40] ++ rest
          = (0xC0 + c.toNat / 0x40) :: ((0x80 + c.toNat % 0x40) :: rest) from rfl]
      rw [utf8LossyChars_cons, utf8DecodeOne_two (by omega) hc2]
      simp [Char.ofNat_toNat]
    · rw [if_neg hc2]
      by_cases hc3 : c.toNat < 0x10000
      · rw [if_pos hc3]
        rw [show [0xE0 + c.toNat / 0x1000, 0x80 + c.toNat / 0x40 % 0x40,
            0x80 + c.toNat % 0x40] ++ rest
            = (0xE0 + c.toNat / 0x1000) :: ((0x80 + c.toNat / 0x40 % 0x40)
              :: (0x80 + c.toNat % 0x40) :: rest) from rfl]
        rw [utf8LossyChars_cons, utf8DecodeOne_three (by omega) hc3
          (by rcases hval with h | h
              · exact Or.inl h
              · exact Or.inr h.1)]
        simp [Char.ofNat_toNat]
      · rw [if_neg hc3]
        have h2 : c.toNat < 0x110000 := by
          rcases hval with h | h
          · omega
          · exact h.2
        rw [show [0xF0 + c.toNat / 0x40000, 0x80 + c.toNat / 0x1000 % 0x40,
            0x80 + c.toNat / 0x40 % 0x40, 0x80 + c.toNat % 0x40] ++ rest
            = (0xF0 + c.toNat / 0x40000) :: ((0x80 + c.toNat / 0x1000 % 0x40)
              :: (0x80 + c.toNat / 0x40 % 0x40) :: (0x80 + c.toNat % 0x40)
              :: rest) from rfl]
        rw [utf8LossyChars_cons, utf8DecodeOne_four (by omega) h2]
        simp [Char.ofNat_toNat]

/-- Lossy decoding of a valid UTF-8 encoding reproduces the string. -/
theorem utf8Lossy_utf8Encode (s : String) : utf8Lossy (utf8Encode s) = s := by
  unfold utf8Lossy utf8Encode
  have h : ∀ l : List Char, utf8LossyChars (l.flatMap utf8EncodeChar) = l := by
    intro l
    induction l with
    | nil => simpa using utf8LossyChars_nil
    | cons c cs ih => rw [List.flatMap_cons, utf8LossyChars_encodeChar, ih]
  rw [h]

/-! ## Last-write-wins label mapping -/

theorem mapLookup_cons (x : String × String) (m : List (String × String))
    (k : String) :
    mapLookup (x :: m) k = if x.1 = k then some x.2 else mapLookup m k := by
  by_cases h : x.1 = k <;> simp [mapLookup, List.find?_cons, h]

theorem mapLookup_append (m m' : List (String × String)) (k : String) :
    mapLookup (m ++ m') k
      = match mapLookup m k with
        | some v => some v
        | none => mapLookup m' k := by
  induction m with
  | nil => simp [mapLookup]
  | cons x m ih =>
    rw [List.cons_append, mapLookup_cons, mapLookup_cons]
    by_cases h : x.1 = k
    · rw [if_pos h, if_pos h]
    · rw [if_neg h, if_neg h, ih]

theorem mapLookup_replace_self : ∀ (m : List (String × String)) (k v : String),
    (m.any fun p => p.1 == k) →
    mapLookup (m.map fun p => if p.1 = k then (k, v) else p) k = some v
  | [], k, v => by simp
  | x :: m, k, v => by
    intro h
    by_cases hx : x.1 = k
    · rw [List.map_cons, if_pos hx, mapLookup_cons, if_pos rfl]
    · rw [List.map_cons, if_neg hx, mapLookup_cons, if_neg hx]
      apply mapLookup_replace_self
      simpa [hx] using h

theorem mapLookup_replace_ne : ∀ (m : List (String × String)) {k k' : String}
    (v : String), k ≠ k' →
    mapLookup (m.map fun p => if p.1 = k' then (k', v) else p) k = mapLookup m k
  | [], _, _ => by simp [mapLookup]
  | x :: m, k, k' => by
    intro v h
    by_cases hx : x.1 = k'
    · rw [List.map_cons, if_pos hx, mapLookup_cons, mapLookup_cons]
      rw [if_neg (Ne.symm h), if_neg (by rw [hx]; exact Ne.symm h)]
      exact mapLookup_replace_ne m v h
    · rw [List.map_cons, if_neg hx, mapLookup_cons, mapLookup_cons]
      by_cases hk : x.1 = k
      · rw [if_pos hk, if_pos hk]
      · rw [if_neg hk, if_neg hk]
        exact mapLookup_replace_ne m v h

theorem mapLookup_mapInsert (m : List (String × String)) (k k' v' : String) :
    mapLookup (mapInsert m k' v') k
      = if k = k' then some v' else mapLookup m k := by
  unfold mapInsert
  by_cases hany : m.any fun p => p.1 == k'
  · rw [if_pos hany]
    by_cases hk : k = k'
    · subst hk
      rw [if_pos rfl]
      exact mapLookup_replace_self m k v' hany
    · rw [if_neg hk]
      exact mapLookup_replace_ne m v' hk
  · rw [if_neg hany, mapLookup_append]
    by_cases hk : k = k'
    · subst hk
      have hnone : mapLookup m k = none := by
        unfold mapLookup
        rw [Option.map_eq_none', List.find?_eq_none]
        intro x hx
        simp only [beq_iff_eq]
        intro hc
        exact hany (List.any_eq_true.mpr ⟨x, hx, by simp [hc]⟩)
      rw [hnone, if_pos rfl, mapLookup_cons, if_pos rfl]
    · rw [if_neg hk]
      cases hm : mapLookup m k with
      | some v => rfl
      | none =>
        rw [mapLookup_cons, if_neg (fun hc => hk hc.symm)]
        simp [mapLookup]

theorem mapLookup_collect_aux : ∀ (l : List (String × String))
    (m : List (String × String)) (k : String),
    mapLookup (l.foldl (fun m p => mapInsert m p.1 p.2) m) k
      = match l.reverse.find? fun p => p.1 == k with
        | some p => some p.2
        | none => mapLookup m k
  | [], m, k => by simp
  | x :: l, m, k => by
    rw [List.foldl_cons, mapLookup_collect_aux l, List.reverse_cons,
      List.find?_append]
    cases hf : l.reverse.find? fun p => p.1 == k with
    | some p => simp
    | none =>
      rw [Option.none_or, mapLookup_mapInsert]
      by_cases hk : k = x.1
      · subst hk
        simp [List.find?_cons]
      · have hxk : ¬(x.1 = k) := fun h => hk h.symm
        simp [List.find?_cons, hxk, hk]

/-- The label mapping collected from a label list binds each key to the
value of its last occurrence: last write wins. -/
theorem mapLookup_collectMap (l : List (String × String)) (k : String) :
    mapLookup (collectMap l) k
      = (l.reverse.find? fun p => p.1 == k).map (·.2) := by
  unfold collectMap
  rw [mapLookup_collect_aux]
  cases hf : l.reverse.find? fun p => p.1 == k <;> simp [mapLookup]

/-! ## Stability of the per-stream timestamp sort -/

theorem eventLE_trans (a b c : LokiEvent) (h1 : eventLE a b) (h2 : eventLE b c) :
    eventLE a c := by
  simp only [eventLE, decide_eq_true_eq] at *
  omega

theorem eventLE_total (a b : LokiEvent) : eventLE a b || eventLE b a := by
  simp only [eventLE, Bool.or_eq_true, decide_eq_true_eq]
  omega

/-- A stable sort leaves the relative order of elements selected by a
`le`-indifferent predicate unchanged. -/
theorem filter_mergeSort_eq_filter {α : Type} (le : α → α → Bool)
    (htrans : ∀ a b c : α, le a b → le b c → le a c)
    (htotal : ∀ a b : α, le a b || le b a)
    (p : α → Bool) (hp : ∀ a b : α, p a → p b → le a b)
    (l : List α) : (l.mergeSort le).filter p = l.filter p := by
  have hpair : (l.filter p).Pairwise fun a b => le a b = true := by
    apply List.pairwise_of_forall_mem_list
    intro a ha b hb
    exact hp a b (List.of_mem_filter ha) (List.of_mem_filter hb)
  have hsub : (l.filter p).Sublist (l.mergeSort le) :=
    List.sublist_mergeSort htrans htotal hpair (List.filter_sublist l)
  have hsub2 : (l.filter p).Sublist ((l.mergeSort le).filter p) := by
    have h := List.Sublist.filter p hsub
    rw [List.filter_filter] at h
    simpa only [Bool.and_self] using h
  have hlen : (l.filter p).length = ((l.mergeSort le).filter p).length :=
    (((List.mergeSort_perm l le).filter p).length_eq).symm
  exact (hsub2.eq_of_length hlen).symm

/-! ## Summing the per-label allocations -/

theorem labels_foldl_sum (l : Labels) : ∀ init : Nat,
    (l.foldl
        (fun res item => res + stringAllocatedBytes item.1
          + stringAllocatedBytes item.2) init)
      = init + (l.map fun p => stringAllocatedBytes p.1
          + stringAllocatedBytes p.2).sum := by
  induction l with
  | nil => simp
  | cons p l ih =>
    intro init
    rw [List.foldl_cons, ih, List.map_cons, List.sum_cons]
    omega

/-! ## Claim theorems -/

theorem lokiBatchFrom_streams (rs : List LokiRecord) :
    (lokiBatchFrom rs).stream_by_labels
      = ((rs.foldl stepStreams []).map
          fun p => (p.1, { p.2 with values := p.2.values.mergeSort eventLE })) := by
  have h : (lokiBatchFrom rs).stream_by_labels
      = ((rs.foldl stepBatch ⟨[], []⟩).stream_by_labels.map
          fun p => (p.1, { p.2 with values := p.2.values.mergeSort eventLE })) := rfl
  rw [h, foldl_stepBatch_streams]

theorem record_event_mem_stream {rs : List LokiRecord} {r : LokiRecord}
    (h : r ∈ rs) :
    ∃ s, streamLookup (lokiBatchFrom rs).stream_by_labels (recordKey r) = some s
      ∧ r.event ∈ s.values := by
  have hfil : r ∈ rs.filter fun q => recordKey q == recordKey r := by
    rw [List.mem_filter]
    exact ⟨h, by simp⟩
  cases hf : rs.filter (fun q => recordKey q == recordKey r) with
  | nil =>
    rw [hf] at hfil
    simp at hfil
  | cons q l =>
    have hlook : streamLookup (lokiBatchFrom rs).stream_by_labels (recordKey r)
        = some ⟨collectMap (sortLabels q.labels),
            (eventsFor rs (recordKey r)).mergeSort eventLE⟩ := by
      rw [lokiBatchFrom_lookup, hf]
    refine ⟨_, hlook, ?_⟩
    rw [List.mem_mergeSort]
    unfold eventsFor
    rw [hf] at hfil
    rw [hf]
    exact List.mem_map_of_mem _ hfil

/-- Claim C1: two records of one batch land in the same stream exactly when
their label lists carry the same set of (key, value) pairs (given no
duplicate keys); each record's event is placed in the stream of its
canonical key, so assignment depends only on the label set, not on input
order. -/
theorem same_stream_iff_same_label_set (rs : List LokiRecord)
    (r1 r2 : LokiRecord) (h1 : r1 ∈ rs) (h2 : r2 ∈ rs)
    (n1 : (r1.labels.map Prod.fst).Nodup) (n2 : (r2.labels.map Prod.fst).Nodup) :
    (∃ s1, streamLookup (lokiBatchFrom rs).stream_by_labels (recordKey r1)
        = some s1 ∧ r1.event ∈ s1.values)
    ∧ (∃ s2, streamLookup (lokiBatchFrom rs).stream_by_labels (recordKey r2)
        = some s2 ∧ r2.event ∈ s2.values)
    ∧ ((∀ p, p ∈ r1.labels ↔ p ∈ r2.labels) ↔ recordKey r1 = recordKey r2) := by
  refine ⟨record_event_mem_stream h1, record_event_mem_stream h2, ?_, ?_⟩
  · intro hset
    have hperm : r1.labels.Perm r2.labels :=
      (List.perm_ext_iff_of_nodup (List.Nodup.of_map Prod.fst n1)
        (List.Nodup.of_map Prod.fst n2)).mpr hset
    unfold recordKey
    rw [sortLabels_eq_of_perm hperm]
  · intro hkey
    have hsort : sortLabels r1.labels = sortLabels r2.labels :=
      labelsString_injective hkey
    intro p
    rw [← (sortLabels_perm r1.labels).mem_iff, hsort,
      (sortLabels_perm r2.labels).mem_iff]

unseal List.merge List.mergeSort in
/-- Witness for C1: in the concrete two-record batch with permuted label
lists, the first record's event is found in the stream of its canonical
key. -/
theorem same_stream_iff_same_label_set_witness :
    ∃ s1, streamLookup (lokiBatchFrom exRecords).stream_by_labels
        (recordKey exRecord1) = some s1 ∧ exRecord1.event ∈ s1.values :=
  (same_stream_iff_same_label_set exRecords exRecord1 exRecord2
    (by simp [exRecords]) (by simp [exRecords]) (by decide) (by decide)).1

/-- Claim C2: in a built batch every stream's event list is ordered by
non-decreasing timestamp, and for each fixed timestamp the events appear in
exactly their grouping-insertion order (the per-stream sort is stable). -/
theorem stream_values_sorted_and_stable (rs : List LokiRecord) (k : String)
    (s : LokiStream)
    (h : streamLookup (lokiBatchFrom rs).stream_by_labels k = some s) :
    (s.values.Pairwise fun a b => a.timestamp ≤ b.timestamp)
    ∧ ∀ t : Int, s.values.filter (fun e => e.timestamp == t)
        = (eventsFor rs k).filter fun e => e.timestamp == t := by
  have hlook := lokiBatchFrom_lookup rs k
  rw [h] at hlook
  cases hf : rs.filter (fun r => recordKey r == k) with
  | nil =>
    rw [hf] at hlook
    simp at hlook
  | cons q l =>
    rw [hf] at hlook
    have hs : s = ⟨collectMap (sortLabels q.labels),
        (eventsFor rs k).mergeSort eventLE⟩ := Option.some_inj.mp hlook
    constructor
    · rw [hs]
      exact (List.sorted_mergeSort eventLE_trans eventLE_total _).imp
        fun hab => by simpa [eventLE] using hab
    · intro t
      rw [hs]
      exact filter_mergeSort_eq_filter eventLE eventLE_trans eventLE_total _
        (fun a b ha hb => by
          simp only [beq_iff_eq] at ha hb
          simp [eventLE, ha, hb]) _

unseal List.merge List.mergeSort in
/-- Witness for C2: the example batch's single stream, under its canonical
key, is sorted with the timestamp-50 event first, and the events of
timestamp 50 appear in insertion order. -/
theorem stream_values_sorted_and_stable_witness :
    (exStream.values.Pairwise fun a b => a.timestamp ≤ b.timestamp)
    ∧ exStream.values.filter (fun e => e.timestamp == 50)
        = (eventsFor exRecords "a,1,b,2,").filter fun e => e.timestamp == 50 :=
  ⟨(stream_values_sorted_and_stable exRecords "a,1,b,2," exStream (by decide)).1,
   (stream_values_sorted_and_stable exRecords "a,1,b,2," exStream (by decide)).2 50⟩

/-- Claim C3: building a batch puts exactly one event per record into
exactly one stream: the total event count over all streams equals the input
record count (no record dropped), and each canonical key owns exactly one
stream. -/
theorem total_event_count_eq_record_count (rs : List LokiRecord) :
    ((((lokiBatchFrom rs).stream_by_labels.map fun p => p.2.values.length).sum)
      = rs.length)
    ∧ ((lokiBatchFrom rs).stream_by_labels.map Prod.fst).Nodup := by
  refine ⟨?_, lokiBatchFrom_keys_nodup rs⟩
  rw [lokiBatchFrom_streams, List.map_map]
  have hmap : ((rs.foldl stepStreams ([] : List (String × LokiStream))).map
      ((fun p => p.2.values.length)
        ∘ fun p => (p.1, { p.2 with values := p.2.values.mergeSort eventLE })))
      = (rs.foldl stepStreams []).map fun p => p.2.values.length := by
    apply List.map_congr_left
    intro p _
    simp [Function.comp, List.length_mergeSort]
  rw [hmap]
  simpa using foldl_stepStreams_count rs []

/-- Claim C4: the canonicalizer sorts the label list (by key, then value),
and the escaped comma-terminated rendering is injective: two label lists
produce the same grouping key exactly when they agree as sorted lists. -/
theorem canonical_key_injective_iff_sorted_eq (l1 l2 : Labels) :
    ((sortLabels l1).Pairwise fun a b => pairLE a b = true)
    ∧ (sortLabels l1).Perm l1
    ∧ (labelsString (sortLabels l1) = labelsString (sortLabels l2)
        ↔ sortLabels l1 = sortLabels l2) := by
  refine ⟨sortLabels_sorted l1, sortLabels_perm l1, ?_, ?_⟩
  · exact fun h => labelsString_injective h
  · exact fun h => by rw [h]

/-- Counterexample to claim C5: on a record with a non-empty tag list and
attachment map, the implemented allocated-size estimator does not include
the tag and attachment strings the spec claims it sums. -/
theorem allocated_bytes_claim_counterexample :
    lokiRecordAllocatedBytes
        ⟨⟨some "t"⟩, [("k", "v")], ⟨0, [120], ["tag"], [("a", "b")]⟩, []⟩
      ≠ specClaimedAllocatedBytes
        ⟨⟨some "t"⟩, [("k", "v")], ⟨0, [120], ["tag"], [("a", "b")]⟩, []⟩ := by
  decide

/-- Claim C5 as amended: the allocated-size estimator sums the payload
bytes, the label key and value strings and the optional tenant string; the
timestamp, the tag strings and the attachment strings contribute zero. -/
theorem allocated_bytes_amended (r : LokiRecord) :
    (lokiRecordAllocatedBytes r
        = r.partition.tenant_id.elim 0 stringAllocatedBytes
          + (r.labels.map fun p => stringAllocatedBytes p.1
              + stringAllocatedBytes p.2).sum
          + r.event.event.length)
    ∧ ∀ (tags : List String) (att : List (String × String)),
        lokiRecordAllocatedBytes
            ⟨r.partition, r.labels,
              ⟨r.event.timestamp, r.event.event, tags, att⟩, r.finalizers⟩
          = lokiRecordAllocatedBytes r := by
  constructor
  · unfold lokiRecordAllocatedBytes lokiEventAllocatedBytes
      partitionKeyAllocatedBytes intAllocatedBytes bytesAllocatedBytes
    rw [labels_foldl_sum]
    cases r.partition.tenant_id <;> simp [Option.elim] <;> omega
  · intro tags att
    rfl

/-- Claim C6: the estimated encoded size of an event is exactly
2 (sequence delimiters) + 2 (timestamp quoting) + decimal length of the
timestamp + 1 (separator) + estimated lossy text length; it is therefore at
least the fixed contribution, and at most linear in the payload length. -/
theorem estimated_event_size_formula (e : LokiEvent) :
    (lokiEventEstimatedJsonSize e
        = 2 + 2 + intJsonSize e.timestamp + 1 + bytesJsonSize e.event)
    ∧ 2 + 2 + intJsonSize e.timestamp + 1 ≤ lokiEventEstimatedJsonSize e
    ∧ lokiEventEstimatedJsonSize e
        ≤ 2 + 2 + intJsonSize e.timestamp + 1 + e.event.length := by
  have hle := utf8LossyChars_length_le e.event
  unfold lokiEventEstimatedJsonSize bracketsSize quotesSize colonSize
    bytesJsonSize at *
  refine ⟨by omega, by omega, by omega⟩

/-- Claim C7: for either format the encoder writes exactly one body
together with the input record count (not the stream count), and returns
the body's byte length, excluding the count metadata. -/
theorem encoder_writes_count_returns_body_length (enc : LokiBatchEncoding)
    (input : List LokiRecord) (w : WriterState) :
    ∃ body : Bytes,
      encode_input enc input w
        = (⟨w.written ++ [(input.length, body)]⟩, body.length) := by
  cases enc <;> exact ⟨_, rfl⟩

/-- Claim C8: a serialized event is the fixed 4-element sequence
[timestamp as decimal string, lossy event text, tags, attachment]; the
lossy conversion is total and preserves valid UTF-8 exactly; and the JSON
body written by the encoder is the object with the single `streams`
field. -/
theorem json_serialization_shape (e : LokiEvent) (rs : List LokiRecord)
    (w : WriterState) :
    (serializeLokiEvent e
        = Json.arr [Json.str (toString e.timestamp), Json.str (utf8Lossy e.event),
            Json.arr (e.tags.map Json.str),
            Json.obj (e.attachment.map fun p => (p.1, Json.str p.2))])
    ∧ (∀ s : String, utf8Lossy (utf8Encode s) = s)
    ∧ (∀ streams : List LokiStream, jsonBodyBytes streams
        = utf8Encode ⟨jsonRender (Json.obj [("streams",
            Json.arr (streams.map serializeLokiStream))])⟩)
    ∧ (encode_input .json rs w).1.written
        = w.written ++ [(rs.length,
            jsonBodyBytes ((lokiBatchFrom rs).stream_by_labels.map (·.2)))] :=
  ⟨rfl, utf8Lossy_utf8Encode, fun _ => rfl, rfl⟩

/-- Claim C9: the canonical grouping key encodes every occurrence of a
repeated key (the sorted list, duplicates included, is recoverable from the
key), while the stream's label mapping binds a repeated key to the value of
its last occurrence in the canonical list (last write wins). -/
theorem duplicate_key_grouping_vs_mapping (l : Labels) (k : String) :
    (decodeLabels (labelsString (sortLabels l)) = some (sortLabels l))
    ∧ (sortLabels l).Perm l
    ∧ mapLookup (collectMap (sortLabels l)) k
        = ((sortLabels l).reverse.find? fun p => p.1 == k).map (·.2) :=
  ⟨decodeLabels_labelsString _, sortLabels_perm l, mapLookup_collectMap _ k⟩

/-- Claim C10: the estimated encoded size of a record is exactly that of
its single event; labels, partition key and finalizers contribute
nothing. -/
theorem record_estimate_is_event_estimate (r : LokiRecord) :
    (lokiRecordEstimatedJsonSize r = lokiEventEstimatedJsonSize r.event)
    ∧ ∀ (part : PartitionKey) (ls : Labels) (fz : EventFinalizers),
        lokiRecordEstimatedJsonSize ⟨part, ls, r.event, fz⟩
          = lokiEventEstimatedJsonSize r.event :=
  ⟨rfl, fun _ _ _ => rfl⟩

end Loki
